import Mathlib

/-!
# Verification of nox's review module (`nox/review.py`)

A shallow embedding of the change-detection and build-dispatch logic of
`nox/review.py` and proofs of the specification's claims about it.

Modelling conventions:
* A Python `str` is a Lean `String`; string primitives used by the code
  (`str.split()`, `str.split('\n')`) are re-defined below on `List Char`,
  exactly mirroring CPython's documented behaviour on ASCII data.
* A Python `set` of strings is a `Finset String`.
* A Python expression that can raise (`l.split()[0]` on a token-less line)
  is modelled with `Option`: `none` is the propagating exception.
* Side effects (subprocess invocations, `click.echo`, `tempfile.mkdtemp`)
  are modelled as an explicit trace of `Event`s; the exit status of an
  external command is supplied by an oracle parameter, since the commands
  themselves are outside the program.
-/

/-- Observable side effects of the program: status output, highlighted
error output, an external command invocation, temporary-directory and
directory creation. -/
inductive Event where
  | echo (msg : String)
  | secho (msg : String)
  | run (cmd : List String)
  | mkdtemp (dir : String)
  | mkdir (dir : String)
  deriving DecidableEq

/-- The longest whitespace-free prefix of a character list: the tail of the
first token produced by Python's `str.split()`. -/
def takeTok : List Char → List Char
  | [] => []
  | c :: cs => if c.isWhitespace then [] else c :: takeTok cs

/-- `firstTokChars cs` is the first whitespace-separated token of `cs`, or
`none` when `cs` has no token (empty or all whitespace).  This is Python's
`s.split()[0]`, with the `IndexError` on a token-less string as `none`. -/
def firstTokChars : List Char → Option (List Char)
  | [] => none
  | c :: cs => if c.isWhitespace then firstTokChars cs else some (c :: takeTok cs)

/-- Python's `l.split()[0]` on a string: first whitespace-separated token. -/
def firstToken (s : String) : Option String :=
  (firstTokChars s.data).map String.mk

/-- Python's `output.split('\x5cn')` on a character list: split at every
newline, keeping empty segments (CPython's `str.split(sep)` semantics —
the result always has one segment more than there are separators). -/
def splitNlChars : List Char → List (List Char)
  | [] => [[]]
  | c :: cs =>
    if c = '\n' then [] :: splitNlChars cs
    else
      match splitNlChars cs with
      | [] => [[c]]
      | t :: ts => (c :: t) :: ts

/-- `packages` from `nox/review.py`, with the evaluator's stdout abstracted
as the argument: `return set(output.split('\x5cn'))`. -/
def packages (output : String) : Finset String :=
  ((splitNlChars output.data).map String.mk).toFinset

/-- The intermediate `raw = old ^ new` of `differences`:
the symmetric difference of the two entry sets. -/
def differencesRaw (old new : Finset String) : Finset String :=
  (old \ new) ∪ (new \ old)

/-- The set comprehension `\x7bl.split()[0] for l in raw\x7d` of
`differences`: project every entry to its first token; if any entry has no
token the comprehension raises `IndexError`, modelled as `none`. -/
def projectNames (raw : Finset String) : Option (Finset String) :=
  if ∀ l ∈ raw, (firstToken l).isSome then
    some (raw.image fun l => (firstToken l).getD "")
  else none

/-- `differences` from `nox/review.py`: symmetric difference of the two
package lists, each surviving entry projected to its attribute name. -/
def differences (old new : Finset String) : Option (Finset String) :=
  projectNames (differencesRaw old new)

lemma splitNlChars_ne_nil (cs : List Char) : splitNlChars cs ≠ [] := by
  cases cs with
  | nil => simp [splitNlChars]
  | cons c cs =>
    unfold splitNlChars
    split
    · simp
    · cases splitNlChars cs <;> simp

lemma splitNlChars_append_nl (cs : List Char) :
    splitNlChars (cs ++ ['\n']) = splitNlChars cs ++ [[]] := by
  induction cs with
  | nil => simp [splitNlChars]
  | cons c cs ih =>
    by_cases hc : c = '\n'
    · subst hc
      simp only [List.cons_append]
      rw [splitNlChars, splitNlChars, if_pos rfl, if_pos rfl, ih]
      simp
    · simp only [List.cons_append]
      rw [splitNlChars, splitNlChars, if_neg hc, if_neg hc, ih]
      rcases h : splitNlChars cs with _ | ⟨t, ts⟩
      · exact absurd h (splitNlChars_ne_nil cs)
      · simp

lemma string_append_data (s t : String) : (s ++ t).data = s.data ++ t.data :=
  rfl

/-- The pull-request metadata the PR review flow reads from the hosting
API's JSON payload: `payload['head']['sha']` and `payload['base']['sha']`. -/
structure PrPayload where
  head : String
  base : String

/-- `review_pr` from `nox/review.py`, with the HTTP payload, the
`git merge-base` invocation and the per-revision package lister abstracted
as arguments.  The result is the argument pair handed to
`build_sha(attrs, head)` — the attribute set to build and the revision
checked out for the build — or `none` when `differences` raises. -/
def review_pr (mergeBase : String → String → String)
    (packagesForSha : String → Finset String) (payload : PrPayload) :
    Option (Finset String × String) :=
  let root := mergeBase payload.head payload.base
  (differences (packagesForSha payload.head) (packagesForSha root)).map
    (fun attrs => (attrs, payload.head))

lemma differencesRaw_comm (A B : Finset String) :
    differencesRaw A B = differencesRaw B A := by
  unfold differencesRaw
  exact Finset.union_comm _ _

lemma differences_comm (A B : Finset String) :
    differences A B = differences B A := by
  unfold differences
  rw [differencesRaw_comm]

/-- C1: on the spec's concrete scenario the differ drops the byte-identical
entry `"foo /nix/a"`, keeps the entries present in exactly one set, and
projects each survivor to its first whitespace-separated token, yielding
exactly `\x7b"bar", "baz"\x7d`. -/
theorem C1_differences_scenario :
    differences {"foo /nix/a", "bar /nix/b"}
      {"foo /nix/a", "bar /nix/c", "baz /nix/d"} = some {"bar", "baz"} := by
  decide

/-- C8: the differ is symmetric in its two arguments. -/
theorem C8_differences_symmetric (A B : Finset String) :
    differences A B = differences B A :=
  differences_comm A B

/-- C2: for every PR payload with head `H` and base `B`, the review flow
diffs the attribute sets of the merge base `M = mergeBase H B` and of `H`
(not of `B` and `H`), and the build it dispatches is checked out at `H`. -/
theorem C2_review_pr_diffs_merge_base (mergeBase : String → String → String)
    (packagesForSha : String → Finset String) (payload : PrPayload) :
    review_pr mergeBase packagesForSha payload =
      (differences (packagesForSha (mergeBase payload.head payload.base))
          (packagesForSha payload.head)).map
        (fun attrs => (attrs, payload.head)) := by
  unfold review_pr
  rw [differences_comm]

/-- C10: the differ is partial — it fails (raises `IndexError`, modelled
`none`) exactly when the symmetric difference of the two sets contains an
entry with no whitespace-separated token, for instance when the empty
string is present in exactly one of the two sets; it returns a name set
whenever every entry of the symmetric difference has at least one token. -/
theorem C10_differences_partial :
    differences {""} (∅ : Finset String) = none ∧
    ∀ A B : Finset String,
      (differences A B = none ↔
        ∃ l ∈ differencesRaw A B, firstToken l = none) := by
  refine ⟨by decide, fun A B => ?_⟩
  unfold differences projectNames
  split
  · case isTrue h =>
      simp only [reduceCtorEq, false_iff, not_exists]
      rintro l ⟨hl, hnone⟩
      have := h l hl
      rw [hnone] at this
      simp at this
  · case isFalse h =>
      simp only [true_iff]
      push_neg at h
      obtain ⟨l, hl, hns⟩ := h
      exact ⟨l, hl, Option.not_isSome_iff_eq_none.mp hns⟩

/-- C3, counterexample: on the evaluator output `"foo /nix/a\n"` (one line
with a trailing newline) the parser's set does contain the empty string —
`set(output.split('\n'))` keeps the segment after the final newline. -/
theorem C3_counterexample : "" ∈ packages "foo /nix/a\n" := by
  decide

/-- C3, amended: for every evaluator output with a trailing newline the
parser returns one entry per newline-delimited segment — all entries of the
output without its final newline — *plus* a spurious empty-string entry for
the trailing empty line. -/
theorem C3_amended_trailing_empty_entry (s : String) :
    packages (s ++ "\n") = packages s ∪ {""} := by
  unfold packages
  rw [string_append_data]
  have hnl : ("\n" : String).data = ['\n'] := rfl
  rw [hnl, splitNlChars_append_nl, List.map_append, List.toFinset_append]
  rfl

/-- `build_in_path` from `nox/review.py`.  `canonicalPath` stands for
`str(Path(path).resolve())` and `resultDir` for the fresh directory name
returned by `tempfile.mkdtemp(prefix='nox-review-')`; `buildOk` and `lsOk`
are the exit statuses of the `nix-build` and `ls -l` invocations.  The
result is the trace of observable effects paired with `true` iff the call
returns without an uncaught exception (the `ls` failure propagates; the
`nix-build` failure is caught and reported). -/
def build_in_path (attrs : List String) (canonicalPath resultDir : String)
    (buildOk lsOk : Bool) : List Event × Bool :=
  if attrs = [] then
    ([Event.echo "Nothing changed"], true)
  else
    let command :=
      "nix-build" :: (attrs.flatMap fun a => ["-A", a]) ++ [canonicalPath]
    let t0 :=
      [Event.mkdtemp resultDir,
       Event.echo ("Building in " ++ resultDir ++ ": "
         ++ String.intercalate " " attrs),
       Event.run command]
    let t1 :=
      if buildOk then t0
      else t0 ++ [Event.secho ("The invocation of \""
        ++ String.intercalate " " command ++ "\" failed")]
    (t1 ++ [Event.echo ("Result in " ++ resultDir),
            Event.run ["ls", "-l", resultDir]],
     lsOk)

/-- C5: with an empty attribute list the builder only echoes
"Nothing changed" and returns successfully: no build invocation, no
temporary output directory, no error. -/
theorem C5_build_empty_noop (canonicalPath resultDir : String)
    (buildOk lsOk : Bool) :
    build_in_path [] canonicalPath resultDir buildOk lsOk
        = ([Event.echo "Nothing changed"], true) ∧
    (∀ cmd, Event.run cmd ∉
      (build_in_path [] canonicalPath resultDir buildOk lsOk).1) ∧
    (∀ d, Event.mkdtemp d ∉
      (build_in_path [] canonicalPath resultDir buildOk lsOk).1) := by
  refine ⟨rfl, ?_, ?_⟩ <;> intro x <;> simp [build_in_path]

/-- C4, counterexample: with one attribute, a failing `nix-build` and a
succeeding `ls`, the builder returns without an uncaught exception — the
run terminates with a success exit status, so the build failure *is*
silently absorbed into a success exit status. -/
theorem C4_counterexample :
    (build_in_path ["x"] "/p" "/tmp/nox-review-x" false true).2 = true := by
  decide

/-- C4, amended: when the build invocation fails the builder reports the
failing command as a highlighted, non-fatal error and still performs the
output-directory listing step; but the failure is absorbed — the run
completes with a success exit status whenever the listing succeeds (its
status is that of the `ls` step alone). -/
theorem C4_build_failure_reported_not_in_exit_status
    (attrs : List String) (canonicalPath resultDir : String) (lsOk : Bool)
    (h : attrs ≠ []) :
    Event.secho ("The invocation of \"" ++ String.intercalate " "
        ("nix-build" :: (attrs.flatMap fun a => ["-A", a]) ++ [canonicalPath])
      ++ "\" failed")
      ∈ (build_in_path attrs canonicalPath resultDir false lsOk).1 ∧
    Event.run ["ls", "-l", resultDir]
      ∈ (build_in_path attrs canonicalPath resultDir false lsOk).1 ∧
    (build_in_path attrs canonicalPath resultDir false lsOk).2 = lsOk := by
  simp [build_in_path, h]

/-- Witness for the amended C4 at a concrete input. -/
theorem C4_build_failure_reported_not_in_exit_status_witness :
    (["x"] ≠ ([] : List String)) ∧
    (Event.secho ("The invocation of \"" ++ String.intercalate " "
        ("nix-build" :: ((["x"] : List String).flatMap fun a => ["-A", a])
          ++ ["/p"]) ++ "\" failed")
      ∈ (build_in_path ["x"] "/p" "/d" false true).1 ∧
    Event.run ["ls", "-l", "/d"] ∈ (build_in_path ["x"] "/p" "/d" false true).1 ∧
    (build_in_path ["x"] "/p" "/d" false true).2 = true) :=
  ⟨by decide, C4_build_failure_reported_not_in_exit_status ["x"] "/p" "/d" true
    (by decide)⟩

/-- The state threaded through cached revision lookups: the persistent
key-value cache plus call logs for the two collaborators the lookup may
invoke (`git checkout <sha>` in the mirror, and one evaluator run). -/
structure LookupState where
  cache : List (String × Finset String)
  checkouts : List String
  evals : Nat
  deriving DecidableEq

/-- Modelled from the spec: the decorator `region.cache_on_arguments()`
comes from `nox/cache.py`, which is not part of the sources here; per the
spec it is a persistent key-value cache keyed by the revision identifier
with compute-if-absent semantics.  `packages_for_sha` from `nox/review.py`
under that model: on a cache miss it checks the revision out in the mirror,
evaluates the tree (the evaluator's result at a revision is the oracle
`pkgs`), stores the result under the identifier and returns it; on a hit it
returns the cached set and invokes neither collaborator. -/
def packages_for_sha (pkgs : String → Finset String) (sha : String)
    (st : LookupState) : Finset String × LookupState :=
  match st.cache.lookup sha with
  | some v => (v, st)
  | none =>
      (pkgs sha,
       { cache := (sha, pkgs sha) :: st.cache,
         checkouts := st.checkouts ++ [sha],
         evals := st.evals + 1 })

/-- C6: a repeated cached lookup of the same revision identifier returns
the previously computed set and leaves the state untouched — no new
checkout and no new evaluator invocation; only the first lookup computes. -/
theorem C6_lookup_cached (pkgs : String → Finset String) (sha : String)
    (st : LookupState) :
    packages_for_sha pkgs sha (packages_for_sha pkgs sha st).2
      = packages_for_sha pkgs sha st := by
  unfold packages_for_sha
  cases h : st.cache.lookup sha with
  | some v => simp [h]
  | none => simp [h, List.lookup]

/-- The trailing part of `get_nixpkgs` in `nox/review.py`: unconditionally
fetch the upstream master branch, then all pull-request head refs, then
return the mirror's path; a failing fetch raises (result `none`). -/
def fetchTail (exec : List String → Bool) (trace : List Event)
    (nixpkgs : String) : List Event × Option String :=
  let fetchMaster := ["git", "fetch", "origin", "master"]
  let fetchPrs := ["git", "fetch", "origin",
    "+refs/pull/*/head:refs/remotes/origin/pr/*"]
  let t1 := trace ++ [Event.run fetchMaster]
  if exec fetchMaster then
    let t2 := t1 ++ [Event.run fetchPrs]
    if exec fetchPrs then (t2, some nixpkgs) else (t2, none)
  else (t1, none)

/-- The opportunistic local-remote block of `get_nixpkgs`:
`try: check_call(git remote add local -f <cwd>) except: pass finally:
check_call(git remote remove local)`.  The `add`'s exit status is swallowed
by the bare `except`, so it does not influence the observable outcome; the
`finally` always invokes the `remove`, whose own `check_call` is *not*
guarded — the second component is `true` iff execution continues past the
block (i.e. iff the `remove` succeeded). -/
def localRemoteStep (exec : List String → Bool) (cwd : String)
    (trace : List Event) : List Event × Bool :=
  let addLocal := ["git", "remote", "add", "local", "-f", cwd]
  let removeLocal := ["git", "remote", "remove", "local"]
  let t1 := trace ++ [Event.run addLocal]
  let t2 := t1 ++ [Event.run removeLocal]
  (t2, exec removeLocal)

/-- `get_nixpkgs` from `nox/review.py`.  Filesystem facts are abstracted as
booleans (`noxDirExists`: the app dir exists; `nixpkgsExists`: the mirror
exists; `inRepo`: `cwd/.git` exists) and every `git` invocation's exit
status comes from the oracle `exec`.  Returns the effect trace and
`some path` on success, `none` when an unguarded `check_call` raised. -/
def get_nixpkgs (exec : List String → Bool)
    (noxDirExists nixpkgsExists inRepo : Bool) (cwd nixpkgs : String) :
    List Event × Option String :=
  let t0 : List Event := if noxDirExists then [] else [Event.mkdir "nox_dir"]
  let init :=
    if nixpkgsExists then (t0, true)
    else
      let gitInit := ["git", "init", nixpkgs]
      let addOrigin := ["git", "remote", "add", "origin",
        "https://github.com/NixOS/nixpkgs.git"]
      let ta := t0 ++ [Event.echo "Cloning nixpkgs", Event.run gitInit]
      if exec gitInit then (ta ++ [Event.run addOrigin], exec addOrigin)
      else (ta, false)
  if init.2 then
    if inRepo then
      let step := localRemoteStep exec cwd init.1
      if step.2 then fetchTail exec step.1 nixpkgs else (step.1, none)
    else fetchTail exec init.1 nixpkgs
  else (init.1, none)

/-- Command oracle under which only `git remote remove local` fails. -/
def execRemoveFails (cmd : List String) : Bool :=
  !(cmd == ["git", "remote", "remove", "local"])

/-- Command oracle under which only the opportunistic
`git remote add local -f /w` fails. -/
def execAddFails (cmd : List String) : Bool :=
  !(cmd == ["git", "remote", "add", "local", "-f", "/w"])

/-- C9, counterexample: with the mirror already set up and the cwd looking
like a repository, if the `git remote remove local` of the opportunistic
block fails, the run aborts — the `finally`-step's `check_call` is not
guarded, so a failure arising from the opportunistic step *is* fatal. -/
theorem C9_counterexample :
    (get_nixpkgs execRemoveFails true true true "/w" "/m").2 = none := by
  decide

/-- C9, amended: the removal of the temporary `local` remote is invoked on
every exit path of the opportunistic add-and-fetch, and a failure of the
add-and-fetch itself is swallowed (`exec` is arbitrary on that command): as
long as the remove and the two unconditional fetches succeed the run
completes successfully.  A failure of the remove command itself, however,
propagates and is fatal. -/
theorem C9_local_remote_removed_add_failure_swallowed
    (exec : List String → Bool) (cwd nixpkgs : String)
    (hrem : exec ["git", "remote", "remove", "local"] = true)
    (hf1 : exec ["git", "fetch", "origin", "master"] = true)
    (hf2 : exec ["git", "fetch", "origin",
      "+refs/pull/*/head:refs/remotes/origin/pr/*"] = true) :
    Event.run ["git", "remote", "remove", "local"]
      ∈ (get_nixpkgs exec true true true cwd nixpkgs).1 ∧
    (get_nixpkgs exec true true true cwd nixpkgs).2 = some nixpkgs := by
  simp [get_nixpkgs, localRemoteStep, fetchTail, hrem, hf1, hf2]

/-- Witness for the amended C9 at a concrete input on which the
opportunistic add actually fails. -/
theorem C9_local_remote_removed_add_failure_swallowed_witness :
    (execAddFails ["git", "remote", "remove", "local"] = true) ∧
    (execAddFails ["git", "fetch", "origin", "master"] = true) ∧
    (execAddFails ["git", "fetch", "origin",
      "+refs/pull/*/head:refs/remotes/origin/pr/*"] = true) ∧
    (Event.run ["git", "remote", "remove", "local"]
      ∈ (get_nixpkgs execAddFails true true true "/w" "/m").1 ∧
    (get_nixpkgs execAddFails true true true "/w" "/m").2 = some "/m") :=
  ⟨by decide, by decide, by decide,
    C9_local_remote_removed_add_failure_swallowed execAddFails "/w" "/m"
      (by decide) (by decide) (by decide)⟩

/-- An attribute name as it occurs in an entry line: a single
whitespace-separated token, i.e. nonempty and free of whitespace. -/
def isToken (s : String) : Prop :=
  s.data ≠ [] ∧ ∀ c ∈ s.data, c.isWhitespace = false

instance (s : String) : Decidable (isToken s) := by
  unfold isToken
  infer_instance

/-- The entry line `"<name> <path>"` of the evaluator's output. -/
def mkEntry (name path : String) : String :=
  name ++ " " ++ path

lemma takeTok_append_space (n p : List Char)
    (hn : ∀ c ∈ n, c.isWhitespace = false) :
    takeTok (n ++ ' ' :: p) = n := by
  induction n with
  | nil => simp [takeTok]
  | cons c cs ih =>
    have hc : c.isWhitespace = false := hn c (by simp)
    simp only [List.cons_append, takeTok, hc, Bool.false_eq_true, if_false,
      List.cons.injEq, true_and]
    exact ih fun x hx => hn x (List.mem_cons_of_mem c hx)

lemma firstTokChars_token (n p : List Char) (hne : n ≠ [])
    (hn : ∀ c ∈ n, c.isWhitespace = false) :
    firstTokChars (n ++ ' ' :: p) = some n := by
  cases n with
  | nil => exact absurd rfl hne
  | cons c cs =>
    have hc : c.isWhitespace = false := hn c (by simp)
    simp only [List.cons_append, firstTokChars, hc, Bool.false_eq_true,
      if_false, Option.some.injEq, List.cons.injEq, true_and]
    exact takeTok_append_space cs p fun x hx => hn x (List.mem_cons_of_mem c hx)

lemma mkEntry_data (name path : String) :
    (mkEntry name path).data = name.data ++ ' ' :: path.data := by
  unfold mkEntry
  rw [string_append_data, string_append_data]
  have hsp : (" " : String).data = [' '] := rfl
  rw [hsp, List.append_assoc]
  rfl

lemma firstToken_mkEntry (name path : String) (h : isToken name) :
    firstToken (mkEntry name path) = some name := by
  unfold firstToken
  rw [mkEntry_data, firstTokChars_token name.data path.data h.1 h.2]
  rfl

lemma mkEntry_inj_right (name p1 p2 : String)
    (h : mkEntry name p1 = mkEntry name p2) : p1 = p2 := by
  have hd := congrArg String.data h
  rw [mkEntry_data, mkEntry_data] at hd
  have htl := List.append_cancel_left hd
  have hpd : p1.data = p2.data := by injection htl
  exact congrArg String.mk hpd

/-- C7: if an attribute name occurs exactly once in each set, as the entry
`"name p1"` in `A` and `"name p2"` in `B`, then the name is reported by
`differences A B` exactly when the two derivation paths differ: with
`p1 ≠ p2` it is a member of the result, with `p1 = p2` (byte-identical
entry lines) it is not. -/
theorem C7_changed_path_detected (A B : Finset String) (name p1 p2 : String)
    (hname : isToken name)
    (hA : mkEntry name p1 ∈ A)
    (hAu : ∀ l ∈ A, firstToken l = some name → l = mkEntry name p1)
    (hB : mkEntry name p2 ∈ B)
    (hBu : ∀ l ∈ B, firstToken l = some name → l = mkEntry name p2)
    (D : Finset String) (hD : differences A B = some D) :
    (p1 ≠ p2 → name ∈ D) ∧ (p1 = p2 → name ∉ D) := by
  unfold differences projectNames at hD
  split at hD
  case isFalse => exact absurd hD (by simp)
  case isTrue hall =>
  have hDimg : D = (differencesRaw A B).image fun l => (firstToken l).getD "" := by
    injection hD with h
    exact h.symm
  constructor
  · intro hne
    have hnB : mkEntry name p1 ∉ B := by
      intro hmem
      exact hne (mkEntry_inj_right name p1 p2
        (hBu _ hmem (firstToken_mkEntry name p1 hname)))
    have hraw : mkEntry name p1 ∈ differencesRaw A B :=
      Finset.mem_union_left _ (Finset.mem_sdiff.mpr ⟨hA, hnB⟩)
    rw [hDimg]
    exact Finset.mem_image.mpr ⟨mkEntry name p1, hraw,
      by rw [firstToken_mkEntry name p1 hname, Option.getD_some]⟩
  · intro heq hmem
    subst heq
    rw [hDimg] at hmem
    obtain ⟨l, hl, hfl⟩ := Finset.mem_image.mp hmem
    obtain ⟨v, hv⟩ := Option.isSome_iff_exists.mp (hall l hl)
    rw [hv, Option.getD_some] at hfl
    subst hfl
    rcases Finset.mem_union.mp hl with hcase | hcase
    · obtain ⟨hlA, hlnB⟩ := Finset.mem_sdiff.mp hcase
      exact hlnB (hAu l hlA hv ▸ hB)
    · obtain ⟨hlB, hlnA⟩ := Finset.mem_sdiff.mp hcase
      exact hlnA (hBu l hlB hv ▸ hA)

/-- Witness for C7 at a concrete input: the name `bar`, present once in
each set with differing paths. -/
theorem C7_changed_path_detected_witness :
    isToken "bar" ∧
    mkEntry "bar" "/nix/b" ∈ ({"bar /nix/b"} : Finset String) ∧
    (∀ l ∈ ({"bar /nix/b"} : Finset String),
      firstToken l = some "bar" → l = mkEntry "bar" "/nix/b") ∧
    mkEntry "bar" "/nix/c" ∈ ({"bar /nix/c"} : Finset String) ∧
    (∀ l ∈ ({"bar /nix/c"} : Finset String),
      firstToken l = some "bar" → l = mkEntry "bar" "/nix/c") ∧
    differences {"bar /nix/b"} {"bar /nix/c"} = some {"bar"} ∧
    (("/nix/b" ≠ "/nix/c" → "bar" ∈ ({"bar"} : Finset String)) ∧
     ("/nix/b" = "/nix/c" → "bar" ∉ ({"bar"} : Finset String))) :=
  ⟨by decide, by decide, by decide, by decide, by decide, by decide,
    C7_changed_path_detected {"bar /nix/b"} {"bar /nix/c"} "bar" "/nix/b"
      "/nix/c" (by decide) (by decide) (by decide) (by decide) (by decide)
      {"bar"} (by decide)⟩
